import Mathlib

/-!
Verification of the Rusty_Filters image-filter engine
(src/rusty_nfts_rust/src/lib.rs) against its natural-language
specification.

The Rust code decodes an image into an RGBA buffer (four 8-bit channels
per pixel), dispatches on a filter-name string, applies one transform and
re-encodes the result.  Decode and encode are external collaborators and
out of scope; the embedding below models the post-decode dispatch and the
filter algorithms themselves.

Modelling conventions:
  - a channel is `Fin 256` (a Rust u8);
  - a pixel is a function `Fin 4 → Chan` (indices 0,1,2,3 = R,G,B,A,
    mirroring `Rgba([r,g,b,a])` and the `px[i]` channel indexing);
  - an `RgbaImage` carries its dimensions and a total pixel function
    (values at coordinates outside `width × height` are irrelevant:
    the code only reads and writes in-bounds coordinates, see
    `conv_access_total`);
  - the convolution kernels in the source are `f32` matrices, but both
    kernels the program ever builds (sharpen, emboss) have integer
    entries, and on integer weights of this size and channel values in
    0..255 every intermediate `f32` value is an integer of magnitude
    below 2^24, where `f32` arithmetic is exact; kernels are therefore
    modelled with integer weights, with sums in `ℤ`;
  - Rust integer division panics on a zero divisor; a panicking
    operation is modelled as `Option`, `none` meaning the invocation
    aborts;
  - the image-crate primitives the dispatcher delegates to (grayscale,
    blur, huerotate, invert, resize) are not part of src/; they are
    modelled from the specification, either as concrete definitions
    (invert, nearest-neighbor resize, whose pixel maps the spec states)
    or as an abstract collaborator structure carrying the contracts the
    spec assigns to them (dimension preservation, a per-pixel luma).
-/

/-- Chan is one 8-bit channel value, a Rust u8. -/
abbrev Chan := Fin 256

/-- Pixel is a 4-channel RGBA value; indices 0,1,2,3 are R,G,B,A. -/
abbrev Pixel := Fin 4 → Chan

/-- Rgba builds a pixel from its four channels, mirroring `Rgba([r,g,b,a])`. -/
def Rgba (r g b a : Chan) : Pixel := fun c =>
  if c = 0 then r else if c = 1 then g else if c = 2 then b else a

/-- RgbaImage is the in-memory pixel buffer: dimensions plus a pixel map,
embedding `image::RgbaImage` shallowly. -/
@[ext]
structure RgbaImage where
  width : ℕ
  height : ℕ
  pixel : ℕ → ℕ → Pixel

/-- new allocates a blank buffer of the given dimensions with every channel
zero, embedding `RgbaImage::new` (zero-initialized, fully transparent black). -/
def RgbaImage.new (w h : ℕ) : RgbaImage := ⟨w, h, fun _ _ _ => 0⟩

/-- put sets the pixel at (x, y), embedding `ImageBuffer::put_pixel`. -/
def RgbaImage.put (img : RgbaImage) (x y : ℕ) (p : Pixel) : RgbaImage :=
  { img with pixel := fun a b => if a = x ∧ b = y then p else img.pixel a b }

/-- constImg is a w×h buffer with every channel equal to v (a concrete
test image used by witnesses). -/
def constImg (w h : ℕ) (v : Chan) : RgbaImage := ⟨w, h, fun _ _ _ => v⟩

/-- Kernel is a 3×3 weight matrix, row-major, indexed [row][col]; integer
entries model the (integer-valued) `f32` kernels of the source exactly. -/
abbrev Kernel := Fin 3 → Fin 3 → ℤ

theorem clamp255_toNat_lt (s : ℤ) : (max 0 (min s 255)).toNat < 256 := by
  rcases le_total s 255 with h | h
  · rcases le_total s 0 with h0 | h0
    · simp [max_eq_left, min_eq_left h]
      omega
    · omega
  · omega

/-- clampChan clamps an integer sum to [0, 255] and converts to a channel,
embedding `sum.clamp(0.0, 255.0) as u8` (on an integer-valued f32 the
truncating cast is the identity after the clamp). -/
def clampChan (s : ℤ) : Chan := ⟨(max 0 (min s 255)).toNat, clamp255_toNat_lt s⟩

/-- convSum is the 3×3 weighted sum for channel c at interior pixel (x, y):
the accumulation of `kernel[ky][kx] * px(x + kx - 1, y + ky - 1)[c]` over
the kernel, embedding the sum_r/sum_g/sum_b/sum_a accumulator loops. -/
def convSum (img : RgbaImage) (kernel : Kernel) (x y : ℕ) (c : Fin 4) : ℤ :=
  ∑ ky : Fin 3, ∑ kx : Fin 3,
    kernel ky kx * ((img.pixel (x + (kx : ℕ) - 1) (y + (ky : ℕ) - 1) c : ℕ) : ℤ)

/-- interiorPixel is the pixel written at an interior coordinate: each of
the four channels is its clamped convolution sum. -/
def interiorPixel (img : RgbaImage) (kernel : Kernel) (x y : ℕ) : Pixel :=
  fun c => clampChan (convSum img kernel x y c)

/-- apply_convolution embeds `apply_convolution`: a fresh zero buffer of the
same dimensions, then for y in 1..height-1 and x in 1..width-1 the interior
pixel (clamped 3×3 weighted sum per channel) is written at (x, y). -/
def apply_convolution (img : RgbaImage) (kernel : Kernel) : RgbaImage :=
  List.foldl
    (fun out y =>
      List.foldl (fun out x => out.put x y (interiorPixel img kernel x y))
        out (List.range' 1 (img.width - 1 - 1)))
    (RgbaImage.new img.width img.height)
    (List.range' 1 (img.height - 1 - 1))

/-- embossKernel is the emboss 3×3 kernel of `apply_emboss`. -/
def embossKernel : Kernel :=
  ![![-2, -1, 0],
    ![-1,  1, 1],
    ![ 0,  1, 2]]

/-- sharpenKernel is the sharpen 3×3 kernel of `apply_sharpen`. -/
def sharpenKernel : Kernel :=
  ![![ 0, -1,  0],
    ![-1,  5, -1],
    ![ 0, -1,  0]]

/-- apply_emboss embeds `apply_emboss`. -/
def apply_emboss (img : RgbaImage) : RgbaImage := apply_convolution img embossKernel

/-- apply_sharpen embeds `apply_sharpen`. -/
def apply_sharpen (img : RgbaImage) : RgbaImage := apply_convolution img sharpenKernel

theorem foldl_put_row_pixel (img : RgbaImage) (kernel : Kernel) (y : ℕ)
    (l : List ℕ) (out : RgbaImage) (a b : ℕ) :
    (List.foldl (fun o x => o.put x y (interiorPixel img kernel x y)) out l).pixel a b
      = if a ∈ l ∧ b = y then interiorPixel img kernel a y else out.pixel a b := by
  induction l generalizing out with
  | nil => simp
  | cons x xs ih =>
    simp only [List.foldl_cons, ih, List.mem_cons]
    by_cases hb : b = y
    · by_cases hxs : a ∈ xs
      · simp [hb, hxs]
      · by_cases hax : a = x
        · subst hax; subst hb
          simp [hxs, RgbaImage.put]
        · simp [hb, hxs, hax, RgbaImage.put]
    · simp [hb, RgbaImage.put]

theorem foldl_put_rows_pixel (img : RgbaImage) (kernel : Kernel)
    (ys : List ℕ) (out : RgbaImage) (a b : ℕ) :
    (List.foldl
      (fun o y =>
        List.foldl (fun o2 x => o2.put x y (interiorPixel img kernel x y))
          o (List.range' 1 (img.width - 1 - 1)))
      out ys).pixel a b
      = if a ∈ List.range' 1 (img.width - 1 - 1) ∧ b ∈ ys
        then interiorPixel img kernel a b else out.pixel a b := by
  induction ys generalizing out with
  | nil => simp
  | cons y ys ih =>
    simp only [List.foldl_cons, ih, List.mem_cons]
    by_cases hys : b ∈ ys
    · by_cases ha : a ∈ List.range' 1 (img.width - 1 - 1)
      · simp [hys, ha]
      · simp [hys, ha, foldl_put_row_pixel]
    · by_cases hb : b = y
      · subst hb
        by_cases ha : a ∈ List.range' 1 (img.width - 1 - 1)
        · simp [hys, ha, foldl_put_row_pixel]
        · simp [hys, ha, foldl_put_row_pixel]
      · simp [hys, hb, foldl_put_row_pixel]

theorem foldl_put_row_dims (img : RgbaImage) (kernel : Kernel) (y : ℕ)
    (l : List ℕ) (out : RgbaImage) :
    (List.foldl (fun o x => o.put x y (interiorPixel img kernel x y)) out l).width
        = out.width
    ∧ (List.foldl (fun o x => o.put x y (interiorPixel img kernel x y)) out l).height
        = out.height := by
  induction l generalizing out with
  | nil => exact ⟨rfl, rfl⟩
  | cons x xs ih => simpa [RgbaImage.put] using ih (out.put x y (interiorPixel img kernel x y))

theorem apply_convolution_dims (img : RgbaImage) (kernel : Kernel) :
    (apply_convolution img kernel).width = img.width
    ∧ (apply_convolution img kernel).height = img.height := by
  unfold apply_convolution
  generalize (List.range' 1 (img.height - 1 - 1)) = ys
  generalize hout : RgbaImage.new img.width img.height = out
  have hw : out.width = img.width := by rw [← hout]; rfl
  have hh : out.height = img.height := by rw [← hout]; rfl
  clear hout
  induction ys generalizing out with
  | nil => exact ⟨hw, hh⟩
  | cons y ys ih =>
    simp only [List.foldl_cons]
    apply ih
    · rw [(foldl_put_row_dims img kernel y _ out).1]; exact hw
    · rw [(foldl_put_row_dims img kernel y _ out).2]; exact hh

theorem apply_convolution_pixel (img : RgbaImage) (kernel : Kernel) (a b : ℕ) :
    (apply_convolution img kernel).pixel a b
      = if (1 ≤ a ∧ a + 1 < img.width) ∧ (1 ≤ b ∧ b + 1 < img.height)
        then interiorPixel img kernel a b
        else fun _ => 0 := by
  unfold apply_convolution
  rw [foldl_put_rows_pixel]
  have hx : (a ∈ List.range' 1 (img.width - 1 - 1)) ↔ (1 ≤ a ∧ a + 1 < img.width) := by
    rw [List.mem_range'_1]; omega
  have hy : (b ∈ List.range' 1 (img.height - 1 - 1)) ↔ (1 ≤ b ∧ b + 1 < img.height) := by
    rw [List.mem_range'_1]; omega
  by_cases h1 : 1 ≤ a ∧ a + 1 < img.width
  · by_cases h2 : 1 ≤ b ∧ b + 1 < img.height
    · simp [hx.mpr h1, hy.mpr h2, h1, h2]
    · simp only [hy, h2, and_false, if_false, if_neg (by simp [h2] : ¬((1 ≤ a ∧ a + 1 < img.width) ∧ 1 ≤ b ∧ b + 1 < img.height))]
      rfl
  · simp only [hx, h1, false_and, if_false, if_neg (by simp [h1] : ¬((1 ≤ a ∧ a + 1 < img.width) ∧ 1 ≤ b ∧ b + 1 < img.height))]
    rfl

theorem sepia_floor_toNat_lt (q : ℚ) : (Int.floor (min q 255)).toNat < 256 := by
  have h : Int.floor (min q 255) ≤ Int.floor (255 : ℚ) :=
    Int.floor_le_floor (min_le_right q 255)
  have h255 : Int.floor (255 : ℚ) = 255 := by
    norm_num
  omega

/-- sepiaChan caps a nonnegative weighted sum at 255 and truncates to a
channel, embedding `(...).min(255.0) as u8` (the saturating float-to-u8
cast truncates toward zero, i.e. takes the floor of a nonnegative value). -/
def sepiaChan (q : ℚ) : Chan := ⟨(Int.floor (min q 255)).toNat, sepia_floor_toNat_lt q⟩

/-- sepiaPixel is the per-pixel body of `apply_sepia`: the R, G, B channels
are replaced by the three capped weighted sums, alpha untouched.  The f32
coefficient literals are modelled as the exact rationals they denote. -/
def sepiaPixel (p : Pixel) : Pixel :=
  Rgba
    (sepiaChan (393/1000 * ((p 0 : ℕ) : ℚ) + 769/1000 * ((p 1 : ℕ) : ℚ) + 189/1000 * ((p 2 : ℕ) : ℚ)))
    (sepiaChan (349/1000 * ((p 0 : ℕ) : ℚ) + 686/1000 * ((p 1 : ℕ) : ℚ) + 168/1000 * ((p 2 : ℕ) : ℚ)))
    (sepiaChan (272/1000 * ((p 0 : ℕ) : ℚ) + 534/1000 * ((p 1 : ℕ) : ℚ) + 131/1000 * ((p 2 : ℕ) : ℚ)))
    (p 3)

/-- apply_sepia embeds `apply_sepia`: a clone of the buffer with every
pixel rewritten by sepiaPixel. -/
def apply_sepia (img : RgbaImage) : RgbaImage :=
  { img with pixel := fun x y => sepiaPixel (img.pixel x y) }

/-- u8Div is Rust unsigned integer division, which panics on a zero
divisor; the panic is modelled as `none`. -/
def u8Div (a b : ℕ) : Option ℕ := if b = 0 then none else some (a / b)

/-- posterizePixel quantizes the R, G, B channels of a pixel down to
multiples of step via `(v / step) * step`, leaving alpha unchanged,
embedding the per-pixel body of `apply_posterize`. -/
def posterizePixel (step : ℕ) (p : Pixel) : Pixel := fun c =>
  if (c : ℕ) < 3 then
    ⟨(p c : ℕ) / step * step,
      Nat.lt_of_le_of_lt (Nat.div_mul_le_self _ _) (p c).isLt⟩
  else p c

/-- apply_posterize embeds `apply_posterize`: step = 255 / (levels - 1)
(Rust u8 division, panicking when levels - 1 = 0, hence the `Option`),
then every pixel is quantized by posterizePixel. -/
def apply_posterize (img : RgbaImage) (levels : ℕ) : Option RgbaImage :=
  (u8Div 255 (levels - 1)).map fun step =>
    { img with pixel := fun x y => posterizePixel step (img.pixel x y) }

/-- Modelled from the spec: `image::imageops::resize` with
`FilterType::Nearest` (external image-crate code absent from src/), per
§4.4 of the spec: the result has the requested dimensions and destination
pixel (dx, dy) takes the source pixel at
(dx * src_width / dst_width, dy * src_height / dst_height). -/
def resizeNearest (img : RgbaImage) (dw dh : ℕ) : RgbaImage :=
  ⟨dw, dh, fun dx dy => img.pixel (dx * img.width / dw) (dy * img.height / dh)⟩

/-- Modelled from the spec: `image::imageops::invert` (external image-crate
code absent from src/), per §4.3 of the spec: every pixel (R,G,B,A) becomes
(255-R, 255-G, 255-B, A), alpha untouched.  The dispatcher clones the
buffer first, so the model returns a new buffer. -/
def invertImage (img : RgbaImage) : RgbaImage :=
  { img with pixel := fun x y c =>
      if (c : ℕ) < 3 then ⟨255 - (img.pixel x y c : ℕ), by omega⟩
      else img.pixel x y c }

/-- LumaImage is a single-channel (luma) buffer, the result type of the
image-crate grayscale collaborator. -/
structure LumaImage where
  width : ℕ
  height : ℕ
  pixel : ℕ → ℕ → Chan

/-- Collaborators models from the spec the image-crate primitives the
dispatcher delegates to without reimplementing (grayscale luma extraction,
Gaussian blur, hue rotation — external code absent from src/), together
with the contracts the spec assigns to them: each preserves the input
dimensions. -/
structure Collaborators where
  grayscale : RgbaImage → LumaImage
  blur : RgbaImage → ℚ → RgbaImage
  huerotate : RgbaImage → ℤ → RgbaImage
  grayscale_dims : ∀ i, (grayscale i).width = i.width ∧ (grayscale i).height = i.height
  blur_dims : ∀ i a, (blur i a).width = i.width ∧ (blur i a).height = i.height
  huerotate_dims : ∀ i a, (huerotate i a).width = i.width ∧ (huerotate i a).height = i.height

/-- idCollaborators is a concrete collaborator instance (luma = red
channel, blur and huerotate the identity); it satisfies the dimension
contracts and lets witnesses evaluate the dispatcher on closed inputs. -/
def idCollaborators : Collaborators where
  grayscale := fun i => ⟨i.width, i.height, fun x y => i.pixel x y 0⟩
  blur := fun i _ => i
  huerotate := fun i _ => i
  grayscale_dims := fun _ => ⟨rfl, rfl⟩
  blur_dims := fun _ _ => ⟨rfl, rfl⟩
  huerotate_dims := fun _ _ => ⟨rfl, rfl⟩

/-- apply_filter embeds the dispatcher `apply_filter` (after the decode
step, which is an out-of-scope collaborator): it matches the filter-name
string and applies the corresponding transform; an unrecognized name
returns the original buffer.  The result is `none` exactly when a branch
panics (only posterize can, on a zero divisor). -/
def apply_filter (C : Collaborators) (img : RgbaImage) (filter_type : String) :
    Option RgbaImage :=
  match filter_type with
  | "grayscale" =>
      let gray_img := C.grayscale img
      some ⟨gray_img.width, gray_img.height, fun x y =>
        let luma := gray_img.pixel x y
        Rgba luma luma luma 255⟩
  | "blur" => some (C.blur img 5)
  | "huerotate" => some (C.huerotate img 90)
  | "invert" => some (invertImage img)
  | "sepia" => some (apply_sepia img)
  | "pixelate" =>
      let resized_img := resizeNearest img (img.width / 10) (img.height / 10)
      some (resizeNearest resized_img img.width img.height)
  | "emboss" => some (apply_emboss img)
  | "sharpen" => some (apply_sharpen img)
  | "posterize" => apply_posterize img 4
  | _ => some img

/-- convAccessOk states, for a buffer of dimensions w×h, that at every
iteration of the interior loops of `apply_convolution` (y ranging over
1..h-1, x over 1..w-1, then the 3×3 kernel offsets) the source access
`(x + kx - 1, y + ky - 1)` does not underflow and stays strictly inside
the buffer, and the output write `(x, y)` is in bounds. -/
def convAccessOk (w h : ℕ) : Prop :=
  ∀ y ∈ List.range' 1 (h - 1 - 1), ∀ x ∈ List.range' 1 (w - 1 - 1),
    ∀ ky kx : Fin 3,
      1 ≤ x + (kx : ℕ) ∧ 1 ≤ y + (ky : ℕ)
      ∧ x + (kx : ℕ) - 1 < w ∧ y + (ky : ℕ) - 1 < h
      ∧ x < w ∧ y < h

/-- pix200 is a concrete pixel with every channel 200, used by a witness. -/
def pix200 : Pixel := fun _ => 200

/-- C1: for every buffer with width ≥ 3 and height ≥ 3, every (integer)
3×3 kernel, every interior pixel (x, y) with 1 ≤ x ≤ width-2 and
1 ≤ y ≤ height-2 and every channel c (alpha included), the convolution
engine writes at (x, y) the kernel-weighted sum over the 3×3 neighborhood
of source channel c, clamped to [0, 255] and truncated to an integer. -/
theorem conv_interior_spec (img : RgbaImage) (kernel : Kernel) (x y : ℕ) (c : Fin 4)
    (hw : 3 ≤ img.width) (hh : 3 ≤ img.height)
    (hx1 : 1 ≤ x) (hx2 : x ≤ img.width - 2) (hy1 : 1 ≤ y) (hy2 : y ≤ img.height - 2) :
    (apply_convolution img kernel).pixel x y c = clampChan (convSum img kernel x y c) := by
  rw [apply_convolution_pixel, if_pos ⟨⟨hx1, by omega⟩, hy1, by omega⟩]
  rfl

/-- Witness for C1 at a concrete 3×3 white buffer with the sharpen kernel. -/
theorem conv_interior_spec_witness :
    (apply_convolution (constImg 3 3 255) sharpenKernel).pixel 1 1 0
      = clampChan (convSum (constImg 3 3 255) sharpenKernel 1 1 0) :=
  conv_interior_spec (constImg 3 3 255) sharpenKernel 1 1 0
    (by decide) (by decide) (by decide) (by decide) (by decide) (by decide)

/-- C2: the convolution engine (hence sharpen and emboss) leaves every
border pixel (x = 0, x = width-1, y = 0 or y = height-1) at the
default-initialized all-zero value (fully transparent black), and when
width < 3 or height < 3 the whole output is the default-initialized
buffer. -/
theorem conv_border_zero (img : RgbaImage) (kernel : Kernel) :
    (∀ x y, x < img.width → y < img.height →
        (x = 0 ∨ x = img.width - 1 ∨ y = 0 ∨ y = img.height - 1) →
        (apply_convolution img kernel).pixel x y = fun _ => 0)
    ∧ (img.width < 3 ∨ img.height < 3 →
        apply_convolution img kernel = RgbaImage.new img.width img.height) := by
  constructor
  · intro x y hx hy hborder
    rw [apply_convolution_pixel, if_neg (by omega)]
  · intro hsmall
    apply RgbaImage.ext
    · exact (apply_convolution_dims img kernel).1
    · exact (apply_convolution_dims img kernel).2
    · funext a b
      rw [apply_convolution_pixel, if_neg (by omega)]
      rfl

/-- Witness for C2: a border pixel of a 3×3 white buffer embossed is the
zero pixel, and embossing a 2×2 buffer returns the blank buffer. -/
theorem conv_border_zero_witness :
    (apply_convolution (constImg 3 3 255) embossKernel).pixel 0 1 = (fun _ => 0)
    ∧ apply_convolution (constImg 2 2 255) embossKernel = RgbaImage.new 2 2 :=
  ⟨(conv_border_zero (constImg 3 3 255) embossKernel).1 0 1 (by decide) (by decide)
      (Or.inl rfl),
   (conv_border_zero (constImg 2 2 255) embossKernel).2 (Or.inl (by decide))⟩

/-- C3 (code bug): the claim says the pixelate downscale dimensions are
floored at 1 (max(1, width/10), max(1, height/10)) so the intermediate
buffer is never zero-sized, but the code passes width/10 and height/10
unguarded: on a 5×5 input the pixelate branch requests a 0×0 intermediate
buffer, where the claimed floor gives 1; the upscale back to the original
dimensions is as claimed. -/
theorem pixelate_unguarded_downscale :
    (resizeNearest (constImg 5 5 255)
        ((constImg 5 5 255).width / 10) ((constImg 5 5 255).height / 10)).width = 0
    ∧ (resizeNearest (constImg 5 5 255)
        ((constImg 5 5 255).width / 10) ((constImg 5 5 255).height / 10)).height = 0
    ∧ max 1 ((constImg 5 5 255).width / 10) = 1
    ∧ (apply_filter idCollaborators (constImg 5 5 255) ("pixelate")).map
        (fun o => (o.width, o.height)) = some (5, 5) :=
  ⟨rfl, rfl, rfl, rfl⟩

/-- C4 (counterexample): the claim says posterize at levels = 1 is
rejected as an explicit InvalidParameter error rather than performing a
division by zero, but the code has no such rejection: at levels = 1 the
step computation itself evaluates 255 / (1 - 1) with divisor 0, and the
invocation fails through that division (a Rust panic, modelled none). -/
theorem posterize_level_one_divzero :
    (1 : ℕ) - 1 = 0
    ∧ u8Div 255 ((1 : ℕ) - 1) = none
    ∧ apply_posterize (constImg 1 1 255) 1 = none :=
  ⟨rfl, rfl, rfl⟩

/-- C4 (amended): invoking posterize with levels = 1 reaches the division
255 / (1 - 1), whose divisor is zero, and the invocation aborts from that
division (a Rust panic, modelled none) with no InvalidParameter rejection;
the dispatcher always invokes posterize with levels fixed at 4, so the
exposed filter never reaches the division by zero. -/
theorem posterize_level_one_behavior (C : Collaborators) (img : RgbaImage) :
    apply_posterize img 1 = none
    ∧ apply_filter C img ("posterize") = apply_posterize img 4 :=
  ⟨rfl, rfl⟩

/-- C5: for every filter-name string outside the recognized token set the
dispatcher returns the original buffer unmodified and signals no error. -/
theorem unknown_filter_passthrough (C : Collaborators) (img : RgbaImage) (name : String)
    (h : name ∉ (["grayscale", "blur", "huerotate", "invert", "sepia", "pixelate",
        "emboss", "sharpen", "posterize"] : List String)) :
    apply_filter C img name = some img := by
  unfold apply_filter
  split <;> simp_all

/-- Witness for C5 at the unrecognized name rotate. -/
theorem unknown_filter_passthrough_witness :
    apply_filter idCollaborators (constImg 2 2 255) ("rotate") = some (constImg 2 2 255) :=
  unknown_filter_passthrough idCollaborators (constImg 2 2 255) ("rotate") (by decide)

/-- C6: every filter branch of the dispatcher (all recognized tokens and
the unrecognized-name passthrough) preserves the buffer dimensions. -/
theorem filter_preserves_dims (C : Collaborators) (img : RgbaImage) (name : String)
    (out : RgbaImage) (h : apply_filter C img name = some out) :
    out.width = img.width ∧ out.height = img.height := by
  unfold apply_filter at h
  split at h
  · simp only [Option.some.injEq] at h
    subst h
    exact C.grayscale_dims img
  · simp only [Option.some.injEq] at h
    subst h
    exact C.blur_dims img 5
  · simp only [Option.some.injEq] at h
    subst h
    exact C.huerotate_dims img 90
  · simp only [Option.some.injEq] at h
    subst h
    exact ⟨rfl, rfl⟩
  · simp only [Option.some.injEq] at h
    subst h
    exact ⟨rfl, rfl⟩
  · simp only [Option.some.injEq] at h
    subst h
    exact ⟨rfl, rfl⟩
  · simp only [Option.some.injEq] at h
    subst h
    exact apply_convolution_dims img embossKernel
  · simp only [Option.some.injEq] at h
    subst h
    exact apply_convolution_dims img sharpenKernel
  · rw [show apply_posterize img 4
        = some { img with pixel := fun x y => posterizePixel 85 (img.pixel x y) } from rfl,
      Option.some.injEq] at h
    subst h
    exact ⟨rfl, rfl⟩
  · simp only [Option.some.injEq] at h
    subst h
    exact ⟨rfl, rfl⟩

/-- Witness for C6 on the passthrough branch at a concrete 3×2 buffer. -/
theorem filter_preserves_dims_witness :
    (constImg 3 2 7).width = (constImg 3 2 7).width
    ∧ (constImg 3 2 7).height = (constImg 3 2 7).height :=
  filter_preserves_dims idCollaborators (constImg 3 2 7) ("foo") (constImg 3 2 7) rfl

/-- C7: the invert filter maps every pixel (R,G,B,A) to
(255-R, 255-G, 255-B, A), alpha untouched, and applying invert twice
reproduces the original buffer exactly. -/
theorem invert_involution (C : Collaborators) (img : RgbaImage) (x y : ℕ) (c : Fin 4) :
    apply_filter C img ("invert") = some (invertImage img)
    ∧ ((invertImage img).pixel x y c : ℕ)
        = (if (c : ℕ) < 3 then 255 - (img.pixel x y c : ℕ) else (img.pixel x y c : ℕ))
    ∧ invertImage (invertImage img) = img := by
  refine ⟨rfl, ?_, ?_⟩
  · by_cases hc : (c : ℕ) < 3
    · simp [invertImage, hc]
    · simp [invertImage, hc]
  · apply RgbaImage.ext
    · rfl
    · rfl
    · funext a b ch
      by_cases hc : (ch : ℕ) < 3
      · apply Fin.ext
        have hv := (img.pixel a b ch).isLt
        simp only [invertImage, if_pos hc]
        omega
      · simp [invertImage, hc]

/-- C8: after the grayscale filter, every output pixel is (L, L, L, 255)
with L the per-pixel luma of the collaborator gray image; in particular
the alpha channel of every output pixel is 255 whatever the source alpha
was. -/
theorem grayscale_forces_alpha (C : Collaborators) (img : RgbaImage) (x y : ℕ) :
    (apply_filter C img ("grayscale")).map (fun o => o.pixel x y)
        = some (Rgba ((C.grayscale img).pixel x y) ((C.grayscale img).pixel x y)
            ((C.grayscale img).pixel x y) 255)
    ∧ Rgba ((C.grayscale img).pixel x y) ((C.grayscale img).pixel x y)
        ((C.grayscale img).pixel x y) 255 3 = 255 :=
  ⟨rfl, rfl⟩

/-- C9: posterize at levels = 4 uses step = 255 / 3 = 85 and maps every
R, G, B channel value v to (v / 85) * 85, which lies in {0, 85, 170, 255}
and never exceeds v, while the alpha channel of every pixel is unchanged. -/
theorem posterize_quantization (img : RgbaImage) (p : Pixel) (c : Fin 4)
    (hc : (c : ℕ) < 3) :
    apply_posterize img 4
        = some { img with pixel := fun x y => posterizePixel 85 (img.pixel x y) }
    ∧ (posterizePixel 85 p c : ℕ) = (p c : ℕ) / 85 * 85
    ∧ ((posterizePixel 85 p c : ℕ) = 0 ∨ (posterizePixel 85 p c : ℕ) = 85
        ∨ (posterizePixel 85 p c : ℕ) = 170 ∨ (posterizePixel 85 p c : ℕ) = 255)
    ∧ (posterizePixel 85 p c : ℕ) ≤ (p c : ℕ)
    ∧ posterizePixel 85 p 3 = p 3 := by
  have hval : (posterizePixel 85 p c : ℕ) = (p c : ℕ) / 85 * 85 := by
    simp [posterizePixel, hc]
  have hv := (p c).isLt
  refine ⟨rfl, hval, ?_, ?_, rfl⟩
  · rw [hval]
    omega
  · rw [hval]
    exact Nat.div_mul_le_self _ _

/-- Witness for C9 at a concrete pixel with every channel 200 and the red
channel. -/
theorem posterize_quantization_witness :
    apply_posterize (constImg 1 1 200) 4
        = some { constImg 1 1 200 with
            pixel := fun x y => posterizePixel 85 ((constImg 1 1 200).pixel x y) }
    ∧ (posterizePixel 85 pix200 0 : ℕ) = (pix200 0 : ℕ) / 85 * 85
    ∧ ((posterizePixel 85 pix200 0 : ℕ) = 0 ∨ (posterizePixel 85 pix200 0 : ℕ) = 85
        ∨ (posterizePixel 85 pix200 0 : ℕ) = 170 ∨ (posterizePixel 85 pix200 0 : ℕ) = 255)
    ∧ (posterizePixel 85 pix200 0 : ℕ) ≤ (pix200 0 : ℕ)
    ∧ posterizePixel 85 pix200 3 = pix200 3 :=
  posterize_quantization (constImg 1 1 200) pix200 0 (by decide)

/-- C10: for every buffer with width ≥ 1 and height ≥ 1 the convolution
engine is total: the loop bounds width - 1 and height - 1 do not
underflow, every source access (x + kx - 1, y + ky - 1) over the loop
ranges neither underflows nor leaves the buffer, and every output write
(x, y) is in bounds. -/
theorem conv_access_total (w h : ℕ) (hw : 1 ≤ w) (hh : 1 ≤ h) :
    (w - 1) + 1 = w ∧ (h - 1) + 1 = h ∧ convAccessOk w h := by
  refine ⟨by omega, by omega, ?_⟩
  intro y hy x hx ky kx
  rw [List.mem_range'_1] at hy hx
  have hky := ky.isLt
  have hkx := kx.isLt
  omega

/-- Witness for C10 at a 3×3 buffer. -/
theorem conv_access_total_witness :
    ((3 : ℕ) - 1) + 1 = 3 ∧ ((3 : ℕ) - 1) + 1 = 3 ∧ convAccessOk 3 3 :=
  conv_access_total 3 3 (by decide) (by decide)
